import Mathlib

/-!
Shallow embedding of the countess-minimap2 plugin core
(`cs_to_hgvs` and `MiniMap2Plugin.process_value` / `output_dict`,
in both bundled versions of `countess_minimap2.py`),
with theorems checking the specification's claims about it.
-/

/-- Nucleotide letters accepted by the token patterns: the character class
`[ACGTN]` (the source writes `[ACTGTN]` once, the same set). -/
def isBase (c : Char) : Bool :=
  c = 'A' || c = 'C' || c = 'G' || c = 'T' || c = 'N'

/-- The character class `[0-9]`. -/
def isDigitCh (c : Char) : Bool :=
  '0' ≤ c && c ≤ '9'

/-- Numeric value of a digit string, as Python `int(op[1:])` computes it on
the digit runs matched by `:[0-9]+`. -/
def natOfDigits (ds : List Char) : Nat :=
  ds.foldl (fun n c => n * 10 + (c.toNat - '0'.toNat)) 0

/-- Number of consecutive complete `\*[ACGTN][ACGTN]` groups at the head of
the list: the greedy count taken by the alternative `(?:\*[ACGTN][ACGTN])+`
of `CS_STRING_RE`. -/
def starCount : List Char → Nat
  | '*' :: x :: y :: rest => if isBase x && isBase y then starCount rest + 1 else 0
  | _ => 0

/-- Fuel-indexed scanner for `re.findall(CS_STRING_RE, s)` where
`CS_STRING_RE = r"(=[ACTGTN]+|:[0-9]+|(?:\*[ACGTN][ACGTN])+|\+[ACGTN]+|-[ACGTN]+)"`:
scan left to right; at each position try the five alternatives (their leading
characters are distinct, so order is immaterial), each matched greedily; a
position where no alternative matches is skipped by one character.  The fuel
only forces structural termination; `l.length` fuel is always enough. -/
def findallGo : Nat → List Char → List (List Char)
  | _, [] => []
  | 0, _ :: _ => []
  | fuel + 1, c :: rest =>
    if c = '=' || c = '+' || c = '-' then
      if (rest.takeWhile isBase).isEmpty then findallGo fuel rest
      else (c :: rest.takeWhile isBase) :: findallGo fuel (rest.dropWhile isBase)
    else if c = ':' then
      if (rest.takeWhile isDigitCh).isEmpty then findallGo fuel rest
      else (c :: rest.takeWhile isDigitCh) :: findallGo fuel (rest.dropWhile isDigitCh)
    else if c = '*' then
      if starCount (c :: rest) = 0 then findallGo fuel rest
      else ((c :: rest).take (3 * starCount (c :: rest))) ::
           findallGo fuel ((c :: rest).drop (3 * starCount (c :: rest)))
    else findallGo fuel rest

/-- `re.findall(CS_STRING_RE, s)` on the character list of `s`. -/
def findall (l : List Char) : List (List Char) :=
  findallGo l.length l

theorem length_dropWhile_le (p : Char → Bool) :
    ∀ l : List Char, (l.dropWhile p).length ≤ l.length := by
  intro l
  induction l with
  | nil => simp
  | cons a l ih =>
    cases h : p a <;> simp [List.dropWhile, h] <;> omega

theorem findallGo_nil (f : Nat) : findallGo f [] = [] := by
  cases f <;> rfl

/-- The fuel does not matter once it is at least the length of the list. -/
theorem findallGo_agree (f₁ f₂ : Nat) (l : List Char)
    (h₁ : l.length ≤ f₁) (h₂ : l.length ≤ f₂) :
    findallGo f₁ l = findallGo f₂ l := by
  induction f₁ generalizing f₂ l with
  | zero =>
    cases l with
    | nil => rw [findallGo_nil, findallGo_nil]
    | cons c rest => simp at h₁
  | succ f ih =>
    cases l with
    | nil => rw [findallGo_nil, findallGo_nil]
    | cons c rest =>
      cases f₂ with
      | zero => simp at h₂
      | succ f' =>
        have hrest : rest.length ≤ f := by
          simp only [List.length_cons] at h₁; omega
        have hrest' : rest.length ≤ f' := by
          simp only [List.length_cons] at h₂; omega
        have hdB : (rest.dropWhile isBase).length ≤ rest.length :=
          length_dropWhile_le isBase rest
        have hdD : (rest.dropWhile isDigitCh).length ≤ rest.length :=
          length_dropWhile_le isDigitCh rest
        simp only [findallGo]
        split_ifs with h1 h2 h3 h2 h4 h5
        · exact ih f' rest hrest hrest'
        · exact congrArg _ (ih f' _ (le_trans hdB hrest) (le_trans hdB hrest'))
        · exact ih f' rest hrest hrest'
        · exact congrArg _ (ih f' _ (le_trans hdD hrest) (le_trans hdD hrest'))
        · exact ih f' rest hrest hrest'
        · refine congrArg _ (ih f' _ ?_ ?_) <;>
            (rw [List.length_drop]; simp only [List.length_cons]; omega)
        · exact ih f' rest hrest hrest'

/-- One-step unfolding of `findall` on a non-empty list, with the recursive
occurrences expressed through `findall` itself. -/
theorem findall_cons (c : Char) (rest : List Char) :
    findall (c :: rest) =
      if c = '=' || c = '+' || c = '-' then
        if (rest.takeWhile isBase).isEmpty then findall rest
        else (c :: rest.takeWhile isBase) :: findall (rest.dropWhile isBase)
      else if c = ':' then
        if (rest.takeWhile isDigitCh).isEmpty then findall rest
        else (c :: rest.takeWhile isDigitCh) :: findall (rest.dropWhile isDigitCh)
      else if c = '*' then
        if starCount (c :: rest) = 0 then findall rest
        else ((c :: rest).take (3 * starCount (c :: rest))) ::
             findall ((c :: rest).drop (3 * starCount (c :: rest)))
      else findall rest := by
  show findallGo (c :: rest).length (c :: rest) = _
  simp only [List.length_cons, findallGo, findall]
  split_ifs with h1 h2 h3 h2 h4 h5
  · rfl
  · exact congrArg _ (findallGo_agree _ _ _ (length_dropWhile_le isBase rest) (le_refl _))
  · rfl
  · exact congrArg _ (findallGo_agree _ _ _ (length_dropWhile_le isDigitCh rest) (le_refl _))
  · rfl
  · refine congrArg _ (findallGo_agree _ _ _ ?_ (le_refl _))
    rw [List.length_drop]; simp only [List.length_cons]; omega
  · rfl

/-- The query bases of a coalesced substitution token: `op[2::3]`,
the characters at indices 2, 5, 8, ... -/
def queryBases : List Char → List Char
  | _ :: _ :: c :: rest => c :: queryBases rest
  | _ => []

/-- One iteration of the `for op in re.findall(...)` loop body of
`cs_to_hgvs`: given the current `offset` and the token `op`, return the
edit appended to `hgvs_ops` (if any) and the updated offset, following the
source's `op[0] == ...` chain.  Tokens produced by the regex are never
empty, and a `*` token always holds at least two bases, so the `[]` arm and
the `getD` defaults are never consulted on real token streams. -/
def opStep (o : Int) (op : List Char) : Option String × Int :=
  match op with
  | [] => (none, o)
  | c :: tl =>
    if c = ':' then (none, o + (natOfDigits tl : Int))
    else if c = '=' then (none, o + (((c :: tl).length : Int) - 1))
    else if c = '*' then
      if (c :: tl).length > 3 then
        (some (toString o ++ "_" ++
               toString (o + (((c :: tl).length / 3 : Nat) : Int) - 1) ++
               "delins" ++ (queryBases (c :: tl)).asString),
         o + (((c :: tl).length / 3 : Nat) : Int))
      else
        (some (toString o ++ (tl.getD 0 'A').toString ++ ">" ++ (tl.getD 1 'A').toString),
         o + (((c :: tl).length / 3 : Nat) : Int))
    else if c = '+' then
      (some (toString (o - 1) ++ "_" ++ toString o ++ "ins" ++ tl.asString), o + 1)
    else if c = '-' then
      if (c :: tl).length > 2 then
        (some (toString o ++ "_" ++ toString (o + ((c :: tl).length : Int) - 2) ++ "del"),
         o + ((c :: tl).length : Int))
      else
        (some (toString o ++ "del"), o + ((c :: tl).length : Int))
    else (none, o)

/-- The whole token loop: accumulated `hgvs_ops` list and final offset. -/
def processTokens : List (List Char) → Int → List String × Int
  | [], o => ([], o)
  | t :: ts, o =>
    let r := processTokens ts (opStep o t).2
    ((opStep o t).1.toList ++ r.1, r.2)

/-- The descriptor lead-in: `"g."`, preceded by `ctg + ":"` when the contig
is non-empty (Python string truthiness). -/
def pfxString (ctg : String) : String :=
  if ctg = "" then "g." else ctg ++ ":" ++ "g."

/-- `cs_to_hgvs` after the input has been uppercased: tokenize, run the
offset/edit loop, compose with the zero/one/many bracketing rule. -/
def csToHgvsCore (l : List Char) (ctg : String) (offset : Int) : String :=
  match (processTokens (findall l) offset).1 with
  | [] => pfxString ctg ++ "="
  | [e] => pfxString ctg ++ e
  | es => pfxString ctg ++ "[" ++ String.intercalate ";" es ++ "]"

/-- `cs_to_hgvs(cs_string, ctg="", offset=1)` from `countess_minimap2.py`:
the difference string is uppercased, tokenized by `CS_STRING_RE`, and folded
into an HGVS descriptor. -/
def cs_to_hgvs (cs_string : String) (ctg : String := "") (offset : Int := 1) : String :=
  csToHgvsCore (cs_string.data.map Char.toUpper) ctg offset

example : cs_to_hgvs ":10*at:10" = "g.11A>T" := by decide
example : cs_to_hgvs ":10-c:10" = "g.11del" := by decide
example : cs_to_hgvs ":10-ttt:10" = "g.11_13del" := by decide
example : cs_to_hgvs ":10+gac:10" = "g.10_11insGAC" := by decide
example : cs_to_hgvs ":10*at*at*gc*cg" = "g.11_14delinsTTCG" := by decide

/-! ## The record builder (`MiniMap2Plugin.output_dict` / `process_value`)

Version 0.0.10 lives in `src/countess_minimap2.py`, version 0.0.13 in
`src/src/countess_minimap2.py`.  The external `mappy` alignment object is
modelled by the fields the plugin reads; the external aligner is modelled
as `none` (unconfigured) or `some hits` (the ordered hit sequence it
returns for the query). -/

/-- The fields of a `mappy` alignment hit that the plugin reads. -/
structure MappyAlignment where
  ctg : String
  r_st : Int
  r_en : Int
  strand : Int
  cigar_str : String
  cs : String
  tseq : String

/-- A value stored in the output record (Python puts strings and ints into
the dict; `none` at the record level is Python `None`). -/
inductive CellValue where
  | str : String → CellValue
  | int : Int → CellValue
deriving DecidableEq

/-- The boolean/numeric/text parameter values the plugin consults.
`pfx` is the "Output Column Prefix" parameter (called `prefix` in the
source). -/
structure MiniMapParams where
  pfx : String
  min_length : Int
  drop : Bool
  location : Bool
  cigar : Bool
  cs : Bool
  hgvs : Bool

/-- `MiniMap2Plugin.output_dict(alignment)` of version 0.0.10: builds the
output record as an insertion-ordered key/value list, one group of keys per
enabled toggle; every value is `None` when `alignment` is `None`. -/
def output_dict (p : MiniMapParams) (alignment : Option MappyAlignment) :
    List (String × Option CellValue) :=
  (if p.location then
    [(p.pfx ++ "_ctg", alignment.map fun a => CellValue.str a.ctg),
     (p.pfx ++ "_r_st", alignment.map fun a => CellValue.int a.r_st),
     (p.pfx ++ "_r_en", alignment.map fun a => CellValue.int a.r_en),
     (p.pfx ++ "_strand", alignment.map fun a => CellValue.int a.strand)]
   else []) ++
  (if p.cigar then [(p.pfx ++ "_cigar", alignment.map fun a => CellValue.str a.cigar_str)]
   else []) ++
  (if p.cs then [(p.pfx ++ "_cs", alignment.map fun a => CellValue.str a.cs)]
   else []) ++
  (if p.hgvs then
    [(p.pfx ++ "_hgvs", alignment.map fun a => CellValue.str (cs_to_hgvs a.cs a.ctg (a.r_st + 1)))]
   else [])

/-- `MiniMap2Plugin.process_value(value)` of version 0.0.10: `None` when no
aligner is configured; otherwise the first hit `z` with
`z.r_en - z.r_st >= min_length` is turned into a record; with no such hit
the row is dropped (`drop`) or a null record is built. -/
def process_value (p : MiniMapParams) (aligner : Option (List MappyAlignment)) :
    Option (List (String × Option CellValue)) :=
  match aligner with
  | none => none
  | some hits =>
    match hits.find? (fun z => p.min_length ≤ z.r_en - z.r_st) with
    | some z => some (output_dict p (some z))
    | none => if p.drop then none else some (output_dict p none)

/-- `MiniMap2Plugin.output_dict(value, alignment)` of version 0.0.13.
`fvs` stands for `countess.utils.variant.find_variant_string`, an external
collaborator of that version (not part of this repository); its arguments
are passed exactly as the source does. -/
def output_dict_v2 (fvs : String → String → String → Int → String)
    (p : MiniMapParams) (value : String) (alignment : Option MappyAlignment) :
    List (String × Option CellValue) :=
  (if p.location then
    [(p.pfx ++ "_ctg", alignment.map fun a => CellValue.str a.ctg),
     (p.pfx ++ "_r_st", alignment.map fun a => CellValue.int a.r_st),
     (p.pfx ++ "_r_en", alignment.map fun a => CellValue.int a.r_en),
     (p.pfx ++ "_strand", alignment.map fun a => CellValue.int a.strand)]
   else []) ++
  (if p.cigar then [(p.pfx ++ "_cigar", alignment.map fun a => CellValue.str a.cigar_str)]
   else []) ++
  (if p.cs then [(p.pfx ++ "_cs", alignment.map fun a => CellValue.str a.cs)]
   else []) ++
  (if p.hgvs then
    [(p.pfx ++ "_hgvs_g", alignment.map fun a => CellValue.str (fvs "g." a.tseq value a.r_st)),
     (p.pfx ++ "_hgvs_p", alignment.map fun a => CellValue.str (fvs "p." a.tseq value a.r_st))]
   else [])

/-- `MiniMap2Plugin.process_value(value)` of version 0.0.13: as in 0.0.10
but `min_length = abs(min_length param)` and the span test is
`abs(z.r_en - z.r_st) >= min_length`. -/
def process_value_v2 (fvs : String → String → String → Int → String)
    (p : MiniMapParams) (value : String) (aligner : Option (List MappyAlignment)) :
    Option (List (String × Option CellValue)) :=
  match aligner with
  | none => none
  | some hits =>
    match hits.find? (fun z => |p.min_length| ≤ |z.r_en - z.r_st|) with
    | some z => some (output_dict_v2 fvs p value (some z))
    | none => if p.drop then none else some (output_dict_v2 fvs p value none)

/-! ## Claims about single operations (C2, C3, C4) -/

/-- Claim C3 (confirmed): an Insertion op `+bases` at offset `o` emits the
edit `"{o-1}_{o}ins{bases}"` and advances the offset by exactly 1,
whatever `length(bases)` is. -/
theorem insertion_edit_and_offset (o : Int) (bs : List Char) (h : bs ≠ []) :
    opStep o ('+' :: bs) =
      (some (toString (o - 1) ++ "_" ++ toString o ++ "ins" ++ bs.asString), o + 1) := by
  simp [opStep]

/-- Witness for `insertion_edit_and_offset` at `o = 10`, bases `GAC`. -/
theorem insertion_edit_and_offset_witness :
    (['G', 'A', 'C'] : List Char) ≠ [] ∧
    opStep 10 ('+' :: ['G', 'A', 'C']) = (some "9_10insGAC", 11) := by
  refine ⟨by decide, ?_⟩
  have h := insertion_edit_and_offset 10 ['G', 'A', 'C'] (by decide)
  rw [h]
  decide

/-- Claim C2 counterexample: the deletion op `-TTT` at offset 11 emits
`"11_13del"` and sets the offset to 15, not the claimed `"11_12del"`
(`{o}_{o+length(bases)-2}del`) and 14 (`o + length(bases)`). -/
theorem deletion_claim_counterexample :
    opStep 11 ('-' :: ['T', 'T', 'T']) = (some "11_13del", 15) ∧
    opStep 11 ('-' :: ['T', 'T', 'T']) ≠ (some "11_12del", 14) := by
  constructor <;> decide

/-- Claim C2 amended: a Deletion op `-bases` at offset `o` emits the edit
`"{o}del"` when `length(bases) = 1` and `"{o}_{o+length(bases)-1}del"`
when `length(bases) > 1`, and advances the offset by `length(bases) + 1`
(the source adds `len(op)`, which includes the `-` marker). -/
theorem deletion_edit_and_offset (o : Int) (bs : List Char) (h : bs ≠ []) :
    opStep o ('-' :: bs) =
      (some (if bs.length = 1 then toString o ++ "del"
             else toString o ++ "_" ++ toString (o + (bs.length : Int) - 1) ++ "del"),
       o + (bs.length : Int) + 1) := by
  match bs, h with
  | b :: bs', _ =>
    rcases bs' with _ | ⟨b', bs''⟩
    · simp [opStep]
      ring
    · have h1 : o + (('-' :: b :: b' :: bs'').length : Int) - 2 =
          o + ((b :: b' :: bs'').length : Int) - 1 := by
        simp only [List.length_cons]; push_cast; ring
      have h2 : o + (('-' :: b :: b' :: bs'').length : Int) =
          o + ((b :: b' :: bs'').length : Int) + 1 := by
        simp only [List.length_cons]; push_cast; ring
      have hgt : ('-' :: b :: b' :: bs'').length > 2 := by simp
      have hlen : ¬((b :: b' :: bs'').length = 1) := by simp
      rw [opStep]
      rw [if_neg (show ¬('-' = ':') by decide), if_neg (show ¬('-' = '=') by decide),
          if_neg (show ¬('-' = '*') by decide), if_neg (show ¬('-' = '+') by decide),
          if_pos hgt, if_neg hlen, h1, h2]
      simp

/-- Witness for `deletion_edit_and_offset` at `o = 11`, bases `TTT`. -/
theorem deletion_edit_and_offset_witness :
    (['T', 'T', 'T'] : List Char) ≠ [] ∧
    opStep 11 ('-' :: ['T', 'T', 'T']) =
      (some (if (['T', 'T', 'T'] : List Char).length = 1 then toString (11 : Int) ++ "del"
             else toString (11 : Int) ++ "_" ++
                  toString ((11 : Int) + ((['T', 'T', 'T'] : List Char).length : Int) - 1) ++ "del"),
       (11 : Int) + ((['T', 'T', 'T'] : List Char).length : Int) + 1) :=
  ⟨by decide, deletion_edit_and_offset 11 ['T', 'T', 'T'] (by decide)⟩

/-- Claim C4 counterexample: the IdenticalSeq op `=AC` (bases `AC`) at
offset 1 moves the offset to 3, i.e. advances it by `length(bases) = 2`,
not by `length(bases) - 1 = 1` as claimed. -/
theorem identical_seq_claim_counterexample :
    opStep 1 ('=' :: ['A', 'C']) = (none, 3) ∧
    opStep 1 ('=' :: ['A', 'C']) ≠ (none, 2) := by
  constructor <;> decide

/-- Claim C4 amended: an IdenticalSeq op `=bases` emits no edit and
advances the offset by exactly `length(bases)` (the source adds
`len(op) - 1`, and `op` includes the `=` marker). -/
theorem identical_seq_offset (o : Int) (bs : List Char) (h : bs ≠ []) :
    opStep o ('=' :: bs) = (none, o + (bs.length : Int)) := by
  simp [opStep]

/-- Witness for `identical_seq_offset` at `o = 1`, bases `AC`. -/
theorem identical_seq_offset_witness :
    (['A', 'C'] : List Char) ≠ [] ∧
    opStep 1 ('=' :: ['A', 'C']) = (none, 1 + ((['A', 'C'] : List Char).length : Int)) :=
  ⟨by decide, identical_seq_offset 1 ['A', 'C'] (by decide)⟩

/-! ## Claim C8: the reference offset never decreases -/

/-- Every single op step leaves the offset no smaller. -/
theorem opStep_offset_le (o : Int) (op : List Char) : o ≤ (opStep o op).2 := by
  match op with
  | [] => simp [opStep]
  | c :: tl =>
    simp only [opStep]
    split_ifs <;> simp only [List.length_cons] <;> omega

/-- A whole token list leaves the offset no smaller. -/
theorem processTokens_offset_le (ts : List (List Char)) (o : Int) :
    o ≤ (processTokens ts o).2 := by
  induction ts generalizing o with
  | nil => simp [processTokens]
  | cons t ts ih =>
    calc o ≤ (opStep o t).2 := opStep_offset_le o t
      _ ≤ (processTokens ts (opStep o t).2).2 := ih _
      _ = (processTokens (t :: ts) o).2 := rfl

/-- The final offset of concatenated token lists is reached by processing
them in sequence. -/
theorem processTokens_append_snd (a b : List (List Char)) (o : Int) :
    (processTokens (a ++ b) o).2 = (processTokens b (processTokens a o).2).2 := by
  induction a generalizing o with
  | nil => rfl
  | cons t ts ih => simp only [List.cons_append, processTokens, List.append_eq, ih]

/-- Claim C8 (confirmed): for every difference string and starting offset,
the offset after any prefix of the token stream is at least the starting
offset, and processing more tokens never decreases it. -/
theorem offset_nondecreasing (l : List Char) (o : Int) (m k : Nat) :
    o ≤ (processTokens ((findall l).take m) o).2 ∧
    (processTokens ((findall l).take m) o).2 ≤
      (processTokens ((findall l).take (m + k)) o).2 := by
  refine ⟨processTokens_offset_le _ o, ?_⟩
  rw [List.take_add, processTokens_append_snd]
  exact processTokens_offset_le _ _

/-! ## Claims about the record builder (C5, C6, C10) -/

/-- `find?` returns the marked element when everything before it fails the
predicate and it passes. -/
theorem find?_first {α : Type} (pred : α → Bool) (l₁ l₂ : List α) (z : α)
    (h₁ : ∀ w ∈ l₁, pred w = false) (hz : pred z = true) :
    (l₁ ++ z :: l₂).find? pred = some z := by
  induction l₁ with
  | nil => simp [List.find?_cons, hz]
  | cons a l ih =>
    have ha : pred a = false := h₁ a (by simp)
    simp only [List.cons_append, List.find?_cons, ha]
    exact ih fun w hw => h₁ w (by simp [hw])

/-- Claim C5 (confirmed for both bundled versions): with a configured
aligner, a non-negative minimum length, and well-formed hit spans
(`r_st ≤ r_en`), the record is built from the first hit whose span
`|r_en - r_st|` reaches `min_length`; earlier non-qualifying hits and all
later hits do not influence the result (the conclusion does not depend on
`l₁` or `l₂`). -/
theorem first_qualifying_hit (p : MiniMapParams) (l₁ l₂ : List MappyAlignment)
    (z : MappyAlignment) (fvs : String → String → String → Int → String) (value : String)
    (hml : 0 ≤ p.min_length)
    (hwf1 : ∀ w ∈ l₁, w.r_st ≤ w.r_en) (hwfz : z.r_st ≤ z.r_en)
    (hno : ∀ w ∈ l₁, ¬(p.min_length ≤ |w.r_en - w.r_st|))
    (hq : p.min_length ≤ |z.r_en - z.r_st|) :
    process_value p (some (l₁ ++ z :: l₂)) = some (output_dict p (some z)) ∧
    process_value_v2 fvs p value (some (l₁ ++ z :: l₂)) =
      some (output_dict_v2 fvs p value (some z)) := by
  have habs : ∀ w : MappyAlignment, w.r_st ≤ w.r_en → |w.r_en - w.r_st| = w.r_en - w.r_st := by
    intro w hw
    exact abs_of_nonneg (by omega)
  have hfind1 : (l₁ ++ z :: l₂).find? (fun z => p.min_length ≤ z.r_en - z.r_st) = some z := by
    apply find?_first
    · intro w hw
      have := hno w hw
      rw [habs w (hwf1 w hw)] at this
      simpa using this
    · have := hq
      rw [habs z hwfz] at this
      simpa using this
  have hfind2 : (l₁ ++ z :: l₂).find? (fun z => |p.min_length| ≤ |z.r_en - z.r_st|) = some z := by
    apply find?_first
    · intro w hw
      have := hno w hw
      rw [abs_of_nonneg hml]
      simpa using this
    · rw [abs_of_nonneg hml]
      simpa using hq
  constructor
  · simp only [process_value, hfind1]
  · simp only [process_value_v2, hfind2]

/-- Witness for `first_qualifying_hit`: a short hit (span 5) followed by a
long one (span 20) with `min_length = 10` selects the second. -/
theorem first_qualifying_hit_witness :
    (0 : Int) ≤ 10 ∧
    (∀ w ∈ [(⟨"chr", 100, 105, 1, "5M", ":5", "ACGTA"⟩ : MappyAlignment)],
       ¬((10 : Int) ≤ |w.r_en - w.r_st|)) ∧
    ((10 : Int) ≤ |(⟨"chr", 100, 120, 1, "20M", ":20", "ACGTA"⟩ : MappyAlignment).r_en -
                   (⟨"chr", 100, 120, 1, "20M", ":20", "ACGTA"⟩ : MappyAlignment).r_st|) ∧
    process_value ⟨"mm", 10, false, true, true, true, true⟩
        (some ([⟨"chr", 100, 105, 1, "5M", ":5", "ACGTA"⟩] ++
               (⟨"chr", 100, 120, 1, "20M", ":20", "ACGTA"⟩ : MappyAlignment) :: [])) =
      some (output_dict ⟨"mm", 10, false, true, true, true, true⟩
              (some ⟨"chr", 100, 120, 1, "20M", ":20", "ACGTA"⟩)) ∧
    process_value_v2 (fun _ _ _ _ => "") ⟨"mm", 10, false, true, true, true, true⟩ "AC"
        (some ([⟨"chr", 100, 105, 1, "5M", ":5", "ACGTA"⟩] ++
               (⟨"chr", 100, 120, 1, "20M", ":20", "ACGTA"⟩ : MappyAlignment) :: [])) =
      some (output_dict_v2 (fun _ _ _ _ => "") ⟨"mm", 10, false, true, true, true, true⟩ "AC"
              (some ⟨"chr", 100, 120, 1, "20M", ":20", "ACGTA"⟩)) := by
  refine ⟨by decide, by decide, by decide, ?_⟩
  exact first_qualifying_hit ⟨"mm", 10, false, true, true, true, true⟩
    [⟨"chr", 100, 105, 1, "5M", ":5", "ACGTA"⟩] []
    ⟨"chr", 100, 120, 1, "20M", ":20", "ACGTA"⟩ (fun _ _ _ _ => "") "AC"
    (by decide) (by decide) (by decide) (by decide) (by decide)

/-- Claim C10 (confirmed): with no aligner configured, both bundled
versions of `process_value` return `None` for every input value, whatever
the `drop` flag and output toggles are. -/
theorem no_aligner_returns_none (p : MiniMapParams)
    (fvs : String → String → String → Int → String) (value : String) :
    process_value p none = none ∧ process_value_v2 fvs p value none = none :=
  ⟨rfl, rfl⟩

/-- Claim C6 counterexample: with no aligner configured and `drop = false`
with all output toggles on, `process_value` still returns no record at all
instead of the claimed record of enabled keys set to null. -/
theorem no_aligner_null_record_counterexample :
    (⟨"mm", 0, false, true, true, true, true⟩ : MiniMapParams).drop = false ∧
    process_value ⟨"mm", 0, false, true, true, true, true⟩ none = none ∧
    output_dict ⟨"mm", 0, false, true, true, true, true⟩ none ≠ [] :=
  ⟨rfl, rfl, by decide⟩

/-- Every value in a null record is `none`. -/
theorem output_dict_none_values (p : MiniMapParams) :
    ∀ kv ∈ output_dict p none, kv.2 = none := by
  intro kv hkv
  simp only [output_dict, Option.map_none', List.mem_append] at hkv
  rcases hkv with ((h | h) | h) | h <;>
    (split_ifs at h <;> simp at h) <;>
    (first
      | (rcases h with h | h | h | h <;> simp [Prod.ext_iff] at h <;> exact h.2)
      | (simp [Prod.ext_iff] at h; exact h.2))

/-- Claim C6 amended: when an aligner is configured but no hit qualifies,
`process_value` drops the row when `drop` is set and otherwise returns the
null record, whose every enabled key is present with value `None`; when no
aligner is configured the result is `None` regardless of `drop`. -/
theorem no_qualifying_hit_behavior (p : MiniMapParams) (hits : List MappyAlignment)
    (h : ∀ z ∈ hits, ¬(p.min_length ≤ z.r_en - z.r_st)) :
    process_value p (some hits) = (if p.drop then none else some (output_dict p none)) ∧
    process_value p none = none ∧
    (∀ kv ∈ output_dict p none, kv.2 = none) ∧
    (p.location = true →
      (p.pfx ++ "_ctg", (none : Option CellValue)) ∈ output_dict p none ∧
      (p.pfx ++ "_r_st", (none : Option CellValue)) ∈ output_dict p none ∧
      (p.pfx ++ "_r_en", (none : Option CellValue)) ∈ output_dict p none ∧
      (p.pfx ++ "_strand", (none : Option CellValue)) ∈ output_dict p none) ∧
    (p.cigar = true → (p.pfx ++ "_cigar", (none : Option CellValue)) ∈ output_dict p none) ∧
    (p.cs = true → (p.pfx ++ "_cs", (none : Option CellValue)) ∈ output_dict p none) ∧
    (p.hgvs = true → (p.pfx ++ "_hgvs", (none : Option CellValue)) ∈ output_dict p none) := by
  have hfind : hits.find? (fun z => p.min_length ≤ z.r_en - z.r_st) = none := by
    rw [List.find?_eq_none]
    intro z hz
    simpa using h z hz
  refine ⟨?_, rfl, output_dict_none_values p, ?_, ?_, ?_, ?_⟩
  · simp only [process_value, hfind]
  · intro hl; refine ⟨?_, ?_, ?_, ?_⟩ <;> simp [output_dict, hl]
  · intro hc; simp [output_dict, hc]
  · intro hc; simp [output_dict, hc]
  · intro hc; simp [output_dict, hc]

/-- Witness for `no_qualifying_hit_behavior`: one hit of span 5 with
`min_length = 10`, `drop = false`, location and hgvs enabled. -/
theorem no_qualifying_hit_behavior_witness :
    (∀ z ∈ [(⟨"chr", 100, 105, 1, "5M", ":5", "ACGTA"⟩ : MappyAlignment)],
       ¬((10 : Int) ≤ z.r_en - z.r_st)) ∧
    process_value ⟨"mm", 10, false, true, false, false, true⟩
        (some [⟨"chr", 100, 105, 1, "5M", ":5", "ACGTA"⟩]) =
      (if (⟨"mm", 10, false, true, false, false, true⟩ : MiniMapParams).drop then none
       else some (output_dict ⟨"mm", 10, false, true, false, false, true⟩ none)) := by
  refine ⟨by decide, ?_⟩
  exact (no_qualifying_hit_behavior ⟨"mm", 10, false, true, false, false, true⟩
    [⟨"chr", 100, 105, 1, "5M", ":5", "ACGTA"⟩] (by decide)).1

/-! ## Claim C1: coalesced substitution runs -/

/-- The raw text of a run of adjacent single-base substitution groups:
`*x₁y₁*x₂y₂...`. -/
def starRun : List (Char × Char) → List Char
  | [] => []
  | (x, y) :: ps => '*' :: x :: y :: starRun ps

theorem starRun_length (ps : List (Char × Char)) :
    (starRun ps).length = 3 * ps.length := by
  induction ps with
  | nil => rfl
  | cons q ps ih =>
    rcases q with ⟨x, y⟩
    simp only [starRun, List.length_cons, ih]
    ring

theorem starCount_starRun (ps : List (Char × Char)) (rest : List Char)
    (hb : ∀ q ∈ ps, isBase q.1 ∧ isBase q.2) :
    starCount (starRun ps ++ rest) = ps.length + starCount rest := by
  induction ps with
  | nil => simp [starRun]
  | cons q ps ih =>
    rcases q with ⟨x, y⟩
    have hx := (hb (x, y) (by simp)).1
    have hy := (hb (x, y) (by simp)).2
    have ih' := ih fun q hq => hb q (by simp [hq])
    simp only [starRun, List.cons_append, List.append_eq, starCount, hx, hy, Bool.and_self,
      if_true, ih', List.length_cons]
    omega

theorem queryBases_starRun (ps : List (Char × Char)) :
    queryBases (starRun ps) = ps.map Prod.snd := by
  induction ps with
  | nil => rfl
  | cons q ps ih =>
    rcases q with ⟨x, y⟩
    simp only [starRun, queryBases, ih, List.map_cons]

/-- A maximal run of adjacent substitution groups, not continued by `rest`,
is scanned as one single token. -/
theorem findall_starRun (ps : List (Char × Char)) (rest : List Char)
    (hne : ps ≠ []) (hb : ∀ q ∈ ps, isBase q.1 ∧ isBase q.2)
    (hrest : starCount rest = 0) :
    findall (starRun ps ++ rest) = starRun ps :: findall rest := by
  rcases ps with _ | ⟨⟨x, y⟩, ps'⟩
  · exact absurd rfl hne
  · have hcount : starCount ('*' :: x :: y :: (starRun ps' ++ rest)) = ps'.length + 1 := by
      have h := starCount_starRun ((x, y) :: ps') rest hb
      rw [hrest] at h
      simpa [starRun, List.cons_append] using h
    have hlen : ('*' :: x :: y :: starRun ps').length = 3 * (ps'.length + 1) := by
      have h := starRun_length ((x, y) :: ps')
      simpa [starRun] using h
    have htake : ('*' :: x :: y :: (starRun ps' ++ rest)).take (3 * (ps'.length + 1)) =
        '*' :: x :: y :: starRun ps' := by
      have h := @List.take_left' Char ('*' :: x :: y :: starRun ps') rest _ hlen
      simpa using h
    have hdrop : ('*' :: x :: y :: (starRun ps' ++ rest)).drop (3 * (ps'.length + 1)) = rest := by
      have h := @List.drop_left' Char ('*' :: x :: y :: starRun ps') rest _ hlen
      simpa using h
    show findall ('*' :: (x :: y :: (starRun ps' ++ rest))) = _
    rw [findall_cons]
    rw [if_neg (by decide), if_neg (by decide), if_pos rfl, hcount,
        if_neg (by omega), htake, hdrop]
    rfl

/-- A lone substitution group is rendered `"{o}{ref}>{query}"` and advances
the offset by 1. -/
theorem opStep_starRun_single (o : Int) (x y : Char) :
    opStep o (starRun [(x, y)]) =
      (some (toString o ++ x.toString ++ ">" ++ y.toString), o + 1) := by
  simp [starRun, opStep]

/-- A coalesced run of `n > 1` substitution groups is rendered
`"{o}_{o+n-1}delins{query bases}"` and advances the offset by `n`. -/
theorem opStep_starRun_multi (o : Int) (ps : List (Char × Char)) (h : 1 < ps.length) :
    opStep o (starRun ps) =
      (some (toString o ++ "_" ++ toString (o + (ps.length : Int) - 1) ++ "delins" ++
             (ps.map Prod.snd).asString),
       o + (ps.length : Int)) := by
  rcases ps with _ | ⟨⟨x, y⟩, ps'⟩
  · simp at h
  · have hone : 1 ≤ ps'.length := by
      simp only [List.length_cons] at h; omega
    have hlen : ('*' :: x :: y :: starRun ps').length = 3 * (ps'.length + 1) := by
      have hsl := starRun_length ((x, y) :: ps')
      simpa [starRun] using hsl
    have hgt : ('*' :: x :: y :: starRun ps').length > 3 := by
      rw [hlen]; omega
    have hdiv : ('*' :: x :: y :: starRun ps').length / 3 = ps'.length + 1 := by
      rw [hlen]; omega
    have hqb : queryBases ('*' :: x :: y :: starRun ps') = y :: ps'.map Prod.snd := by
      have h := queryBases_starRun ((x, y) :: ps')
      simpa [starRun, queryBases] using h
    show opStep o ('*' :: (x :: y :: starRun ps')) = _
    rw [opStep]
    rw [if_neg (by decide), if_neg (by decide), if_pos rfl, if_pos hgt, hdiv, hqb]
    simp only [List.length_cons, List.map_cons]

/-- Claim C1 (confirmed): a maximal run of adjacent `*XY` substitution
groups (not continued by what follows) is tokenized as one op; processing
it at offset `o` emits `"{o}{ref}>{query}"` when the run has one group and
`"{o}_{o+n-1}delins{q₁...qₙ}"` (the query bases concatenated in order)
when it has `n > 1`, and in both cases the offset advances by exactly the
number of groups. -/
theorem subst_run_coalesced_and_formatted (ps : List (Char × Char)) (o : Int)
    (rest : List Char) (hne : ps ≠ [])
    (hb : ∀ q ∈ ps, isBase q.1 ∧ isBase q.2) (hrest : starCount rest = 0) :
    findall (starRun ps ++ rest) = starRun ps :: findall rest ∧
    (∀ x y, ps = [(x, y)] →
       opStep o (starRun ps) =
         (some (toString o ++ x.toString ++ ">" ++ y.toString), o + 1)) ∧
    (1 < ps.length →
       opStep o (starRun ps) =
         (some (toString o ++ "_" ++ toString (o + (ps.length : Int) - 1) ++ "delins" ++
                (ps.map Prod.snd).asString),
          o + (ps.length : Int))) := by
  refine ⟨findall_starRun ps rest hne hb hrest, ?_, opStep_starRun_multi o ps⟩
  intro x y hxy
  subst hxy
  exact opStep_starRun_single o x y

/-- Witness for `subst_run_coalesced_and_formatted`: the run `*AT*GC`
followed by `:1` becomes one token, rendered `11_12delinsTC` at offset
11. -/
theorem subst_run_coalesced_and_formatted_witness :
    ([(('A' : Char), ('T' : Char)), ('G', 'C')] : List (Char × Char)) ≠ [] ∧
    (∀ q ∈ ([(('A' : Char), ('T' : Char)), ('G', 'C')] : List (Char × Char)),
       isBase q.1 ∧ isBase q.2) ∧
    starCount [':', '1'] = 0 ∧
    findall (starRun [(('A' : Char), ('T' : Char)), ('G', 'C')] ++ [':', '1']) =
      starRun [(('A' : Char), ('T' : Char)), ('G', 'C')] :: findall [':', '1'] ∧
    opStep 11 (starRun [(('A' : Char), ('T' : Char)), ('G', 'C')]) =
      (some (toString (11 : Int) ++ "_" ++
             toString ((11 : Int) +
               (([(('A' : Char), ('T' : Char)), ('G', 'C')] : List (Char × Char)).length : Int)
               - 1) ++
             "delins" ++
             (([(('A' : Char), ('T' : Char)), ('G', 'C')] : List (Char × Char)).map
                Prod.snd).asString),
       (11 : Int) +
         (([(('A' : Char), ('T' : Char)), ('G', 'C')] : List (Char × Char)).length : Int)) := by
  refine ⟨by decide, by decide, by decide, ?_, ?_⟩
  · exact (subst_run_coalesced_and_formatted [('A', 'T'), ('G', 'C')] 11 [':', '1']
      (by decide) (by decide) (by decide)).1
  · exact (subst_run_coalesced_and_formatted [('A', 'T'), ('G', 'C')] 11 [':', '1']
      (by decide) (by decide) (by decide)).2.2 (by decide)

/-! ## Claim C7: identity-only difference strings -/

/-- A character list that is a concatenation of `:` digit-run tokens and
`=` base-run tokens only. -/
inductive ColonEqStr : List Char → Prop
  | nil : ColonEqStr []
  | colonTok (ds rest : List Char) : ds ≠ [] → (∀ c ∈ ds, isDigitCh c) →
      ColonEqStr rest → ColonEqStr (':' :: (ds ++ rest))
  | eqTok (bs rest : List Char) : bs ≠ [] → (∀ c ∈ bs, isBase c) →
      ColonEqStr rest → ColonEqStr ('=' :: (bs ++ rest))

/-- Splitting a run followed by a non-run remainder. -/
theorem takeWhile_run_append (p : Char → Bool) (run rest : List Char)
    (hrun : ∀ c ∈ run, p c) (hrest : ∀ r rs, rest = r :: rs → p r = false) :
    (run ++ rest).takeWhile p = run ∧ (run ++ rest).dropWhile p = rest := by
  induction run with
  | nil =>
    simp only [List.nil_append]
    cases rest with
    | nil => simp
    | cons r rs =>
      have hr := hrest r rs rfl
      simp [List.takeWhile_cons, List.dropWhile_cons, hr]
  | cons a run ih =>
    have ha : p a = true := hrun a (by simp)
    have ih' := ih fun c hc => hrun c (by simp [hc])
    simp [List.takeWhile_cons, List.dropWhile_cons, ha, ih'.1, ih'.2]

/-- The head of an identity-only string is never a digit or a base. -/
theorem ColonEqStr.head_flags {rest : List Char} (h : ColonEqStr rest) :
    ∀ r rs, rest = r :: rs → isDigitCh r = false ∧ isBase r = false := by
  cases h with
  | nil => intro r rs hh; cases hh
  | colonTok ds rest' hne hd hr =>
    intro r rs hh
    have hr' : r = ':' := by injection hh with h1 _; exact h1.symm
    subst hr'
    exact ⟨by decide, by decide⟩
  | eqTok bs rest' hne hb hr =>
    intro r rs hh
    have hr' : r = '=' := by injection hh with h1 _; exact h1.symm
    subst hr'
    exact ⟨by decide, by decide⟩

/-- An identity-only string produces no edits at all. -/
theorem colonEq_no_edits (l : List Char) (h : ColonEqStr l) :
    ∀ o : Int, (processTokens (findall l) o).1 = [] := by
  induction h with
  | nil => intro o; rfl
  | colonTok ds rest hne hd hr ih =>
    intro o
    have hsplit := takeWhile_run_append isDigitCh ds rest hd
      (fun r rs hh => (hr.head_flags r rs hh).1)
    have hds : ds.isEmpty = false := by
      cases ds with
      | nil => exact absurd rfl hne
      | cons a l => rfl
    rw [findall_cons, if_neg (by decide), if_pos rfl, hsplit.1, hsplit.2, hds]
    have hop : (opStep o (':' :: ds)).1 = none := by simp [opStep]
    simp only [Bool.false_eq_true, if_false, processTokens, hop, Option.toList_none,
      List.nil_append]
    exact ih _
  | eqTok bs rest hne hb hr ih =>
    intro o
    have hsplit := takeWhile_run_append isBase bs rest hb
      (fun r rs hh => (hr.head_flags r rs hh).2)
    have hbs : bs.isEmpty = false := by
      cases bs with
      | nil => exact absurd rfl hne
      | cons a l => rfl
    rw [findall_cons, if_pos (by decide), hsplit.1, hsplit.2, hbs]
    have hop : (opStep o ('=' :: bs)).1 = none := by simp [opStep]
    simp only [Bool.false_eq_true, if_false, processTokens, hop, Option.toList_none,
      List.nil_append]
    exact ih _

/-- Claim C7 (confirmed): a difference string made only of `:` and `=`
tokens, converted with an empty contig and any starting offset, yields
exactly `"g.="`. -/
theorem colon_eq_only_identity (s : String) (o : Int)
    (h : ColonEqStr (s.data.map Char.toUpper)) :
    cs_to_hgvs s "" o = "g.=" := by
  unfold cs_to_hgvs csToHgvsCore
  rw [colonEq_no_edits _ h o]
  rfl

/-- Witness for `colon_eq_only_identity`: `":10=ac"` at offset 7. -/
theorem colon_eq_only_identity_witness :
    ColonEqStr ((":10=ac").data.map Char.toUpper) ∧ cs_to_hgvs ":10=ac" "" 7 = "g.=" := by
  have h : ColonEqStr ((":10=ac").data.map Char.toUpper) := by
    show ColonEqStr (':' :: (['1', '0'] ++ ('=' :: (['A', 'C'] ++ []))))
    exact ColonEqStr.colonTok ['1', '0'] ('=' :: (['A', 'C'] ++ [])) (by decide) (by decide)
      (ColonEqStr.eqTok ['A', 'C'] [] (by decide) (by decide) ColonEqStr.nil)
  exact ⟨h, colon_eq_only_identity ":10=ac" 7 h⟩

/-! ## Claim C9: unmatched fragments are silently skipped -/

/-- Whether one of the five token patterns of `CS_STRING_RE` matches at the
start of the list. -/
def matchesAt : List Char → Bool
  | [] => false
  | c :: rest =>
    if c = '=' || c = '+' || c = '-' then !(rest.takeWhile isBase).isEmpty
    else if c = ':' then !(rest.takeWhile isDigitCh).isEmpty
    else if c = '*' then starCount (c :: rest) != 0
    else false

/-- Claim C9 (confirmed): a position where no token pattern matches is
skipped: it produces no token, leaves the emitted edits, the final offset
and the whole descriptor unchanged, and the conversion still returns a
well-formed descriptor (the embedding is a total function, mirroring the
exception-free source paths). -/
theorem unmatched_fragment_skipped (c : Char) (rest : List Char) (ctg : String) (o : Int)
    (h : matchesAt (c :: rest) = false) :
    findall (c :: rest) = findall rest ∧
    csToHgvsCore (c :: rest) ctg o = csToHgvsCore rest ctg o ∧
    (processTokens (findall (c :: rest)) o).2 = (processTokens (findall rest) o).2 ∧
    ∃ t, csToHgvsCore (c :: rest) ctg o = pfxString ctg ++ t := by
  have hfind : findall (c :: rest) = findall rest := by
    rw [findall_cons]
    rw [matchesAt] at h
    split_ifs at h ⊢ with h1 h2 h3 h2 h4 h5
    · rfl
    · simp at h
      simp [h] at h2
    · rfl
    · simp at h
      simp [h] at h2
    · rfl
    · simp at h
      simp [h] at h5
    · rfl
  have hcore : csToHgvsCore (c :: rest) ctg o = csToHgvsCore rest ctg o := by
    simp only [csToHgvsCore, hfind]
  refine ⟨hfind, hcore, by simp only [hfind], ?_⟩
  rw [hcore]
  rcases hops : (processTokens (findall rest) o).1 with _ | ⟨e, es⟩
  · exact ⟨"=", by simp only [csToHgvsCore, hops]⟩
  · rcases es with _ | ⟨e2, es'⟩
    · exact ⟨e, by simp only [csToHgvsCore, hops]⟩
    · exact ⟨"[" ++ String.intercalate ";" (e :: e2 :: es') ++ "]",
        by simp only [csToHgvsCore, hops, String.append_assoc]⟩

/-- Witness for `unmatched_fragment_skipped`: a `~` (splice) byte before
`":5"` is skipped without affecting the descriptor. -/
theorem unmatched_fragment_skipped_witness :
    matchesAt ['~', ':', '5'] = false ∧
    findall ['~', ':', '5'] = findall [':', '5'] ∧
    csToHgvsCore ['~', ':', '5'] "" 1 = csToHgvsCore [':', '5'] "" 1 := by
  refine ⟨by decide, ?_, ?_⟩
  · exact (unmatched_fragment_skipped '~' [':', '5'] "" 1 (by decide)).1
  · exact (unmatched_fragment_skipped '~' [':', '5'] "" 1 (by decide)).2.1
